import Mathlib

/-
Verification of the Taoshi miner/validator core against its source:
- src/miner_objects/position_inspector.py (PositionInspector)
- src/shared_objects/cache_controller.py (CacheController)

Python dicts are embedded as association lists in insertion order; machine
floats are embedded as rationals; timestamps as integers/naturals.
-/

namespace Taoshi

/-- An order record; only its presence is consumed by the reconciler
(len(position.orders)), remaining fields follow the data model. -/
structure OrderRec where
  processed_ms : Nat
  size : ℚ
  price : ℚ
  deriving DecidableEq, Repr

/-- A position record as consumed by reconcile_validator_positions:
a dict with fields orders and net_leverage. -/
structure PositionRec where
  orders : List OrderRec
  net_leverage : ℚ
  deriving DecidableEq, Repr

/-- A validator axon reference; the inspector reads only its hotkey. -/
structure Validator where
  hotkey : String
  deriving DecidableEq, Repr

/-- hotkey_to_positions: a Python dict in insertion order. -/
abbrev Replica := List (String × List PositionRec)

/- Python dict primitives over association lists (insertion order kept,
assignment to an existing key updates in place). -/

def dictContains {α : Type} (d : List (String × α)) (k : String) : Bool :=
  d.any (fun e => e.1 == k)

def dictLookup {α : Type} (d : List (String × α)) (k : String) : Option α :=
  (d.find? (fun e => e.1 == k)).map (fun e => e.2)

def dictInsert {α : Type} (d : List (String × α)) (k : String) (v : α) :
    List (String × α) :=
  if dictContains d k then d.map (fun e => if e.1 == k then (k, v) else e)
  else d ++ [(k, v)]

def dictKeys {α : Type} (d : List (String × α)) : List String :=
  d.map (fun e => e.1)

/-- orders_count contribution of one peer: sum of len(position.orders). -/
def orderCount (ps : List PositionRec) : Nat :=
  (ps.map (fun p => p.orders.length)).sum

/-- hotkey_total_portfolio_leverage: sum of abs(position.net_leverage). -/
def totalAbsLeverage (ps : List PositionRec) : ℚ :=
  (ps.map (fun p => |p.net_leverage|)).sum

/-- The greatest per-peer order count over a replica set (0 when empty). -/
def maxOrderCount : Replica → Nat
  | [] => 0
  | e :: t => max (orderCount e.2) (maxOrderCount t)

/-- Loop state of reconcile_validator_positions
(position_inspector.py lines 66-84). -/
structure ReconcileAcc where
  max_order_count : Nat
  corresponding_positions : List PositionRec
  corresponding_hotkey : Option String
  high_leverage : List String
  deriving DecidableEq, Repr

/-- One iteration of the reconciliation loop: accumulate the leverage
warning, then take this peer as the running best iff its order count is
strictly greater than the running maximum. -/
def reconcileStep (acc : ReconcileAcc) (e : String × List PositionRec) :
    ReconcileAcc :=
  let c := orderCount e.2
  let lev := totalAbsLeverage e.2
  let hl := if 10 ≤ lev then acc.high_leverage ++ [e.1] else acc.high_leverage
  if acc.max_order_count < c then
    { max_order_count := c, corresponding_positions := e.2,
      corresponding_hotkey := some e.1, high_leverage := hl }
  else
    { acc with high_leverage := hl }

/-- Result of reconcile_validator_positions: the canonical list plus the
emitted diagnostics. -/
structure ReconcileOutput where
  positions : List PositionRec
  desync_warning : Bool
  high_leverage : List String
  selected_hotkey : Option String
  deriving DecidableEq, Repr

/-- reconcile_validator_positions (position_inspector.py lines 63-102).
The desync warning fires iff len(set(orders_count.values())) > 1. -/
def reconcile_validator_positions (replica : Replica) : ReconcileOutput :=
  let acc := replica.foldl reconcileStep ⟨0, [], none, []⟩
  let counts := replica.map (fun e => orderCount e.2)
  ⟨acc.corresponding_positions, decide (1 < counts.dedup.length),
    acc.high_leverage, acc.corresponding_hotkey⟩

/-- The diagnostic-free core of the selection: track only
(max_order_count, corresponding_positions). -/
def selectStep (acc : Nat × List PositionRec) (e : String × List PositionRec) :
    Nat × List PositionRec :=
  if acc.1 < orderCount e.2 then (orderCount e.2, e.2) else acc

/-- Pure selection of the canonical position list, no diagnostics. -/
def selectCanonical (replica : Replica) : List PositionRec :=
  (replica.foldl selectStep (0, [])).2

/- Lemmas about the reconciliation fold. -/

theorem mem_le_maxOrderCount {e : String × List PositionRec} :
    ∀ {replica : Replica}, e ∈ replica → orderCount e.2 ≤ maxOrderCount replica := by
  intro replica
  induction replica with
  | nil => intro h; cases h
  | cons x t ih =>
    intro h
    rcases List.mem_cons.mp h with h | h
    · subst h; simp [maxOrderCount, Nat.le_max_left]
    · exact le_trans (ih h) (by simp [maxOrderCount, Nat.le_max_right])

theorem foldl_reconcileStep_tracks (replica : Replica) :
    ∀ (c : Nat) (ps : List PositionRec) (hk : Option String) (hl : List String),
    (List.foldl reconcileStep ⟨c, ps, hk, hl⟩ replica).corresponding_positions
        = (List.foldl selectStep (c, ps) replica).2
    ∧ (List.foldl reconcileStep ⟨c, ps, hk, hl⟩ replica).max_order_count
        = (List.foldl selectStep (c, ps) replica).1 := by
  induction replica with
  | nil => intro c ps hk hl; exact ⟨rfl, rfl⟩
  | cons e t ih =>
    intro c ps hk hl
    simp only [List.foldl_cons, reconcileStep, selectStep]
    by_cases hc : c < orderCount e.2
    · simp only [hc, if_true]
      exact ih (orderCount e.2) e.2 (some e.1) _
    · simp only [hc, if_false]
      exact ih c ps hk _

theorem reconcile_positions_eq_selectCanonical (replica : Replica) :
    (reconcile_validator_positions replica).positions = selectCanonical replica := by
  simpa [reconcile_validator_positions, selectCanonical] using
    (foldl_reconcileStep_tracks replica 0 [] none []).1

theorem foldl_selectStep_of_le (replica : Replica) :
    ∀ (c : Nat) (ps : List PositionRec),
    (∀ e ∈ replica, orderCount e.2 ≤ c) →
    List.foldl selectStep (c, ps) replica = (c, ps) := by
  induction replica with
  | nil => intro c ps _; rfl
  | cons e t ih =>
    intro c ps h
    have he : orderCount e.2 ≤ c := h e (by simp)
    simp only [List.foldl_cons, selectStep, Nat.not_lt_of_le he, if_false]
    exact ih c ps (fun x hx => h x (by simp [hx]))

theorem foldl_selectStep_find (replica : Replica) :
    ∀ (c : Nat) (ps : List PositionRec), c < maxOrderCount replica →
    ∃ e, replica.find? (fun x => orderCount x.2 == maxOrderCount replica) = some e
      ∧ List.foldl selectStep (c, ps) replica = (maxOrderCount replica, e.2) := by
  induction replica with
  | nil => intro c ps h; simp [maxOrderCount] at h
  | cons e t ih =>
    intro c ps h
    have hm : maxOrderCount (e :: t) = max (orderCount e.2) (maxOrderCount t) := rfl
    by_cases hce : c < orderCount e.2
    · by_cases hmt : maxOrderCount t ≤ orderCount e.2
      · have hmax : maxOrderCount (e :: t) = orderCount e.2 := by
          rw [hm]; exact Nat.max_eq_left hmt
        refine ⟨e, ?_, ?_⟩
        · rw [List.find?_cons_of_pos]
          simp [hmax]
        · simp only [List.foldl_cons, selectStep, hce, if_true]
          rw [foldl_selectStep_of_le t (orderCount e.2) e.2
            (fun x hx => le_trans (mem_le_maxOrderCount (by exact hx)) hmt)]
          rw [hmax]
      · have hlt : orderCount e.2 < maxOrderCount t := Nat.lt_of_not_le hmt
        have hmax : maxOrderCount (e :: t) = maxOrderCount t := by
          rw [hm]; exact Nat.max_eq_right (Nat.le_of_lt hlt)
        obtain ⟨x, hfind, hfold⟩ := ih (orderCount e.2) e.2 hlt
        refine ⟨x, ?_, ?_⟩
        · rw [List.find?_cons_of_neg]
          · rw [hmax]; exact hfind
          · simp [hmax, Nat.ne_of_lt hlt]
        · simp only [List.foldl_cons, selectStep, hce, if_true]
          rw [hmax]; exact hfold
    · have hce2 : orderCount e.2 ≤ c := Nat.le_of_not_lt hce
      have hlt : c < maxOrderCount t := by
        rw [hm] at h
        rcases lt_max_iff.mp h with h1 | h2
        · exact absurd h1 hce
        · exact h2
      have hmax : maxOrderCount (e :: t) = maxOrderCount t := by
        rw [hm]; exact Nat.max_eq_right (le_trans hce2 (Nat.le_of_lt hlt))
      obtain ⟨x, hfind, hfold⟩ := ih c ps hlt
      refine ⟨x, ?_, ?_⟩
      · rw [List.find?_cons_of_neg]
        · rw [hmax]; exact hfind
        · simp [hmax, Nat.ne_of_lt (lt_of_le_of_lt hce2 hlt)]
      · simp only [List.foldl_cons, selectStep, hce, if_false]
        rw [hmax]; exact hfold

/- Retry loop of get_positions_with_retry (position_inspector.py 104-125).
The network reply of a peer at a given attempt is modelled as an Option:
none stands for a failed / unsuccessfully-processed response. -/

/-- Source constant PositionInspector.MAX_RETRIES. -/
def MAX_RETRIES : Nat := 1

/-- Source constant PositionInspector.INITIAL_RETRY_DELAY (seconds). -/
def INITIAL_RETRY_DELAY : Nat := 3

/-- Source constant PositionInspector.UPDATE_INTERVAL_S (seconds). -/
def UPDATE_INTERVAL_S : Int := 5 * 60

/-- remaining_validators_to_query (position_inspector.py line 50). -/
def remaining_validators (validators : List Validator) (collected : Replica) :
    List Validator :=
  validators.filter (fun v => !(dictContains collected v.hotkey))

/-- Successful responses of one query round, keyed by hotkey
(position_inspector.py lines 49-61 plus the insertion at 114-115). -/
def query_successes (remaining : List Validator) (reply : String → Option (List PositionRec)) :
    List (String × List PositionRec) :=
  remaining.filterMap (fun v => (reply v.hotkey).map (fun ps => (v.hotkey, ps)))

/-- Observable trace of a get_positions_with_retry run: per attempt the
hotkeys queried, and the sleep durations taken before retries. -/
structure QueryLog where
  queried : List (List String)
  sleeps : List Nat
  deriving DecidableEq, Repr

/-- The while loop of get_positions_with_retry (position_inspector.py
lines 105-117), with the attempt counter, the remaining attempt budget,
the current backoff delay, the accumulated replica dict, and the trace. -/
def positions_retry_loop (validators : List Validator)
    (reply : Nat → String → Option (List PositionRec)) :
    Nat → Nat → Nat → Replica → QueryLog → Replica × QueryLog
  | _, 0, _, collected, log => (collected, log)
  | attempt, left + 1, delay, collected, log =>
    if collected.length = validators.length then (collected, log)
    else
      let sleeps1 := if 0 < attempt then log.sleeps ++ [delay] else log.sleeps
      let delay1 := if 0 < attempt then delay * 2 else delay
      let remaining := remaining_validators validators collected
      let got := query_successes remaining (reply attempt)
      let collected1 := got.foldl (fun d e => dictInsert d e.1 e.2) collected
      positions_retry_loop validators reply (attempt + 1) left delay1 collected1
        ⟨log.queried ++ [remaining.map (fun v => v.hotkey)], sleeps1⟩

/-- Full observable outcome of get_positions_with_retry. -/
structure RunResult where
  canonical : List PositionRec
  acked : List String
  collected : Replica
  log : QueryLog
  deriving DecidableEq, Repr

/-- get_positions_with_retry (position_inspector.py lines 104-125):
run the bounded retry loop, record the acked validators
(hotkey_to_positions.keys()), reconcile, return the canonical list. -/
def get_positions_with_retry (maxRetries initialDelay : Nat)
    (validators : List Validator)
    (reply : Nat → String → Option (List PositionRec)) : RunResult :=
  let r := positions_retry_loop validators reply 0 maxRetries initialDelay [] ⟨[], []⟩
  { canonical := (reconcile_validator_positions r.1).positions,
    acked := dictKeys r.1,
    collected := r.1,
    log := r.2 }

/- Arrival-order model: the transport (bt.dendrite.query) collects the wire
replies of one attempt in physical arrival order and hands them back
realigned with the queried axon list; the realignment keys on the peer. -/

/-- Re-associate wire replies (in arrival order) to the queried hotkeys. -/
def realign (hks : List String)
    (wire : List (String × Option (List PositionRec))) :
    List (Option (List PositionRec)) :=
  hks.map (fun h =>
    match wire.find? (fun p => p.1 == h) with
    | some p => p.2
    | none => none)

/-- The retry loop where each attempt's replies cross the wire in an
arbitrary arrival order chosen by the shuffle parameter, then are realigned
per peer before the zip at position_inspector.py line 54. -/
def positions_retry_loop_arrival (validators : List Validator)
    (reply : Nat → String → Option (List PositionRec))
    (shuffle : Nat → List (String × Option (List PositionRec)) →
      List (String × Option (List PositionRec))) :
    Nat → Nat → Nat → Replica × QueryLog → Replica × QueryLog := fun attempt left delay st =>
  match left with
  | 0 => st
  | left1 + 1 =>
    if st.1.length = validators.length then st
    else
      let collected := st.1
      let log := st.2
      let sleeps1 := if 0 < attempt then log.sleeps ++ [delay] else log.sleeps
      let delay1 := if 0 < attempt then delay * 2 else delay
      let remaining := remaining_validators validators collected
      let wire := shuffle attempt
        (remaining.map (fun v => (v.hotkey, reply attempt v.hotkey)))
      let responses := realign (remaining.map (fun v => v.hotkey)) wire
      let got := (remaining.zip responses).filterMap
        (fun pr => pr.2.map (fun ps => (pr.1.hotkey, ps)))
      let collected1 := got.foldl (fun d e => dictInsert d e.1 e.2) collected
      positions_retry_loop_arrival validators reply shuffle (attempt + 1) left1 delay1
        (collected1, ⟨log.queried ++ [remaining.map (fun v => v.hotkey)], sleeps1⟩)

/-- get_positions_with_retry under the explicit arrival-order model. -/
def get_positions_with_retry_arrival (maxRetries initialDelay : Nat)
    (validators : List Validator)
    (reply : Nat → String → Option (List PositionRec))
    (shuffle : Nat → List (String × Option (List PositionRec)) →
      List (String × Option (List PositionRec))) : RunResult :=
  let r := positions_retry_loop_arrival validators reply shuffle 0 maxRetries
    initialDelay ([], ⟨[], []⟩)
  { canonical := (reconcile_validator_positions r.1).positions,
    acked := dictKeys r.1,
    collected := r.1,
    log := r.2 }

/- CacheController embedding (shared_objects/cache_controller.py).
The eliminations document {"eliminations": [...]} is modelled by its row
list; the plagiarism-score document by an association list. -/

/-- An elimination row (cache_controller.py line 45). -/
structure EliminationRow where
  hotkey : String
  elimination_initiated_time_ms : Nat
  dd : ℚ
  reason : String
  deriving DecidableEq, Repr

/-- get_eliminations_from_disk (cache_controller.py 118-122): read the
persisted row list. -/
def get_eliminations_from_disk (disk : List EliminationRow) :
    List EliminationRow :=
  disk

/-- get_filtered_eliminations_from_disk (cache_controller.py 95-104):
keep only rows whose hotkey is in self.metagraph.hotkeys. -/
def get_filtered_eliminations_from_disk (metagraphHotkeys : List String)
    (disk : List EliminationRow) : List EliminationRow :=
  (get_eliminations_from_disk disk).filter
    (fun e => metagraphHotkeys.contains e.hotkey)

/-- write_eliminations_to_disk (cache_controller.py 69-73): the document
becomes exactly the written list. -/
def write_eliminations_to_disk (elims : List EliminationRow) :
    List EliminationRow :=
  elims

/-- The refresh in cache_controller.py 88-90: load-and-filter into memory,
then flush memory to disk. Returns (memory, new disk document). -/
def refresh_eliminations_in_memory_and_disk (metagraphHotkeys : List String)
    (disk : List EliminationRow) :
    List EliminationRow × List EliminationRow :=
  let mem := get_filtered_eliminations_from_disk metagraphHotkeys disk
  (mem, write_eliminations_to_disk mem)

/-- The Python merge \x7b**a, **b\x7d on dicts: keys of a in place with
values overridden by b, then the new keys of b appended in order. -/
def dictUpdate {α : Type} (a b : List (String × α)) : List (String × α) :=
  a.map (fun e => (e.1, (dictLookup b e.1).getD e.2))
    ++ b.filter (fun e => !(dictContains a e.1))

/-- The dict comprehension building blocklist_scores
(cache_controller.py 139-141): every listed miner_id maps to score 1. -/
def blocklistScores (blocklist : List String) : List (String × ℚ) :=
  blocklist.foldl (fun d h => dictInsert d h 1) []

/-- The refresh in cache_controller.py 130-153: load scores, build the
blocklist override, drop scores of hotkeys outside the metagraph, merge the
override on top, write the merge back. Returns (memory, new disk document). -/
def refresh_plagiarism_scores_in_memory_and_disk (metagraphHotkeys : List String)
    (cachedDisk : List (String × ℚ)) (blocklist : List String) :
    List (String × ℚ) × List (String × ℚ) :=
  let bscores := blocklistScores blocklist
  let filtered := cachedDisk.filter (fun e => metagraphHotkeys.contains e.1)
  let merged := dictUpdate filtered bscores
  (merged, merged)

/-- The drawdown thresholds of ValiConfig. The file vali_config.py is not
part of the sources; the spec leaves both values configuration, so they are
parameters here. -/
structure ValiConfigM where
  MAX_DAILY_DRAWDOWN : ℚ
  MAX_TOTAL_DRAWDOWN : ℚ
  deriving DecidableEq, Repr

/-- The local-time fields read by is_drawdown_beyond_mdd. -/
structure TimestampM where
  hour : Nat
  minute : Nat
  deriving DecidableEq, Repr

/-- The three possible answers of is_drawdown_beyond_mdd: the two breach
strings or False. -/
inductive MddCheck where
  | maxDailyDrawdown
  | maxTotalDrawdown
  | noBreach
  deriving DecidableEq, Repr

/-- is_drawdown_beyond_mdd (cache_controller.py 210-218). -/
def is_drawdown_beyond_mdd (cfg : ValiConfigM) (dd : ℚ) (t : TimestampM) :
    MddCheck :=
  if dd < cfg.MAX_DAILY_DRAWDOWN ∧ t.hour = 0 ∧ t.minute < 5 then
    MddCheck.maxDailyDrawdown
  else if dd < cfg.MAX_TOTAL_DRAWDOWN then
    MddCheck.maxTotalDrawdown
  else
    MddCheck.noBreach

/- PositionInspector rate limiting (position_inspector.py 127-147). -/

/-- The inspector state mutated by log_validator_positions. -/
structure InspectorState where
  last_update_time : Int
  recently_acked : List String
  deriving DecidableEq, Repr

/-- refresh_allowed (position_inspector.py 127-128). -/
def refresh_allowed (now : Int) (st : InspectorState) : Bool :=
  UPDATE_INTERVAL_S < now - st.last_update_time

/-- log_validator_positions (position_inspector.py 130-147). The Python
function returns None on both paths; the middle component is its returned
value, the last component counts the query rounds issued. nowEnd is the
time.time() value taken after the refresh completes. -/
def log_validator_positions (now nowEnd : Int) (st : InspectorState)
    (validators : List Validator)
    (reply : Nat → String → Option (List PositionRec)) :
    InspectorState × Option (List PositionRec) × Nat :=
  if refresh_allowed now st then
    let run := get_positions_with_retry MAX_RETRIES INITIAL_RETRY_DELAY
      validators reply
    ({ last_update_time := nowEnd, recently_acked := run.acked }, none,
      run.log.queried.length)
  else
    (st, none, 0)

/- Dictionary lemmas. -/

theorem dictContains_iff {α : Type} {d : List (String × α)} {k : String} :
    dictContains d k = true ↔ ∃ e ∈ d, e.1 = k := by
  simp [dictContains, List.any_eq_true, beq_iff_eq]

theorem mem_dictKeys_iff {α : Type} {d : List (String × α)} {h : String} :
    h ∈ dictKeys d ↔ dictContains d h = true := by
  rw [dictContains_iff]
  simp only [dictKeys, List.mem_map]

theorem dictLookup_eq_none_iff {α : Type} {d : List (String × α)} {k : String} :
    dictLookup d k = none ↔ dictContains d k = false := by
  simp [dictLookup, dictContains, List.find?_eq_none, Option.map_eq_none',
    List.any_eq_false]

theorem dictContains_insert_iff {α : Type} (d : List (String × α))
    (k h : String) (v : α) :
    dictContains (dictInsert d k v) h = true
      ↔ (dictContains d h = true ∨ k = h) := by
  unfold dictInsert
  by_cases hc : dictContains d k
  · obtain ⟨e0, he0, hk0⟩ := dictContains_iff.mp hc
    simp only [hc, if_true, dictContains_iff]
    constructor
    · rintro ⟨e, he, hkey⟩
      rcases List.mem_map.mp he with ⟨x, hx, rfl⟩
      by_cases hxk : x.1 = k
      · right
        simpa [hxk] using hkey
      · left
        refine ⟨x, hx, ?_⟩
        simpa [hxk] using hkey
    · rintro (⟨e, he, hkey⟩ | hkh)
      · by_cases hek : e.1 = k
        · refine ⟨(k, v), List.mem_map.mpr ⟨e0, he0, ?_⟩, ?_⟩
          · simp [hk0]
          · rw [← hkey, hek]
        · refine ⟨e, List.mem_map.mpr ⟨e, he, ?_⟩, hkey⟩
          simp [hek]
      · refine ⟨(k, v), List.mem_map.mpr ⟨e0, he0, ?_⟩, hkh⟩
        simp [hk0]
  · simp only [hc, if_false, dictContains_iff]
    constructor
    · rintro ⟨e, he, hkey⟩
      rcases List.mem_append.mp he with he1 | he1
      · exact Or.inl ⟨e, he1, hkey⟩
      · right
        have : e = (k, v) := by simpa using he1
        rw [← hkey, this]
    · rintro (⟨e, he, hkey⟩ | hkh)
      · exact ⟨e, List.mem_append.mpr (Or.inl he), hkey⟩
      · exact ⟨(k, v), List.mem_append.mpr (Or.inr (by simp)), hkh⟩

theorem dictContains_foldl_insert {α : Type} (l : List (String × α)) :
    ∀ (c : List (String × α)) (h : String),
    dictContains (l.foldl (fun d e => dictInsert d e.1 e.2) c) h = true
      ↔ (dictContains c h = true ∨ ∃ e ∈ l, e.1 = h) := by
  induction l with
  | nil => intro c h; simp
  | cons x t ih =>
    intro c h
    simp only [List.foldl_cons]
    rw [ih, dictContains_insert_iff]
    simp only [List.mem_cons]
    constructor
    · rintro ((hch | hx) | ⟨e, he, hk⟩)
      · exact Or.inl hch
      · exact Or.inr ⟨x, Or.inl rfl, hx⟩
      · exact Or.inr ⟨e, Or.inr he, hk⟩
    · rintro (hch | ⟨e, he | he, hk⟩)
      · exact Or.inl (Or.inl hch)
      · subst he; exact Or.inl (Or.inr hk)
      · exact Or.inr ⟨e, he, hk⟩

theorem length_dictInsert_fresh {α : Type} (d : List (String × α)) (k : String)
    (v : α) (h : dictContains d k = false) :
    (dictInsert d k v).length = d.length + 1 := by
  simp [dictInsert, h]

theorem length_foldl_insert_fresh {α : Type} :
    ∀ (l : List (String × α)) (c : List (String × α)),
    (∀ e ∈ l, dictContains c e.1 = false) → (dictKeys l).Nodup →
    (l.foldl (fun d e => dictInsert d e.1 e.2) c).length = c.length + l.length := by
  intro l
  induction l with
  | nil => intro c _ _; rfl
  | cons x t ih =>
    intro c hfresh hnd
    simp only [List.foldl_cons]
    have hx : dictContains c x.1 = false := hfresh x (by simp)
    have hnd2 : (x.1 :: dictKeys t).Nodup := hnd
    have hnd1 : (dictKeys t).Nodup := (List.nodup_cons.mp hnd2).2
    have hxt : x.1 ∉ dictKeys t := (List.nodup_cons.mp hnd2).1
    have hfresh1 : ∀ e ∈ t, dictContains (dictInsert c x.1 x.2) e.1 = false := by
      intro e he
      rw [Bool.eq_false_iff]
      intro hcon
      rcases (dictContains_insert_iff c x.1 e.1 x.2).mp hcon with hch | hxe
      · exact absurd hch (by rw [hfresh e (by simp [he])]; simp)
      · exact hxt (by rw [hxe]; exact mem_dictKeys_iff.mpr (dictContains_iff.mpr ⟨e, he, rfl⟩))
    rw [ih (dictInsert c x.1 x.2) hfresh1 hnd1,
      length_dictInsert_fresh c x.1 x.2 hx, List.length_cons]
    omega

theorem dictKeys_query_successes (reply : String → Option (List PositionRec)) :
    ∀ (remaining : List Validator),
    dictKeys (query_successes remaining reply)
      = (remaining.filter (fun v => (reply v.hotkey).isSome)).map
          (fun v => v.hotkey) := by
  intro remaining
  induction remaining with
  | nil => rfl
  | cons v t ih =>
    cases hr : reply v.hotkey with
    | none =>
      simpa [query_successes, dictKeys, List.filterMap_cons, hr,
        List.filter_cons] using ih
    | some ps =>
      simpa [query_successes, dictKeys, List.filterMap_cons, hr,
        List.filter_cons] using ih

theorem mem_query_successes {remaining : List Validator}
    {reply : String → Option (List PositionRec)} {k : String}
    {ps : List PositionRec} :
    (k, ps) ∈ query_successes remaining reply
      ↔ ∃ v ∈ remaining, v.hotkey = k ∧ reply k = some ps := by
  simp only [query_successes, List.mem_filterMap, Option.map_eq_some']
  constructor
  · rintro ⟨v, hv, ps0, hps0, heq⟩
    have h1 : v.hotkey = k := congrArg Prod.fst heq
    have h2 : ps0 = ps := congrArg Prod.snd heq
    exact ⟨v, hv, h1, by rw [← h1, hps0, h2]⟩
  · rintro ⟨v, hv, h1, h2⟩
    exact ⟨v, hv, ps, by rw [h1]; exact h2, by rw [h1]⟩

/- Lemmas about the retry loop. -/

theorem retry_loop_stop (validators : List Validator)
    (reply : Nat → String → Option (List PositionRec)) :
    ∀ (left attempt delay : Nat) (c : Replica) (log : QueryLog),
    c.length = validators.length →
    positions_retry_loop validators reply attempt left delay c log = (c, log) := by
  intro left attempt delay c log hlen
  cases left with
  | zero => rfl
  | succ l => simp [positions_retry_loop, hlen]

theorem retry_loop_all_fail (validators : List Validator)
    (reply : Nat → String → Option (List PositionRec))
    (hfail : ∀ k hk, reply k hk = none) :
    ∀ (left attempt delay : Nat) (c : Replica) (log : QueryLog),
    (positions_retry_loop validators reply attempt left delay c log).1 = c := by
  intro left
  induction left with
  | zero => intro attempt delay c log; rfl
  | succ l ih =>
    intro attempt delay c log
    simp only [positions_retry_loop]
    by_cases hlen : c.length = validators.length
    · simp [hlen]
    · simp only [hlen, if_false]
      have hgot : query_successes (remaining_validators validators c)
          (reply attempt) = [] := by
        simp [query_successes, hfail]
      rw [hgot]
      exact ih (attempt + 1) _ c _

theorem retry_loop_log_spec (validators : List Validator)
    (reply : Nat → String → Option (List PositionRec)) :
    ∀ (left attempt delay : Nat) (c : Replica) (log : QueryLog),
    ∃ ext sl,
      (positions_retry_loop validators reply attempt left delay c log).2.queried
        = log.queried ++ ext
      ∧ (positions_retry_loop validators reply attempt left delay c log).2.sleeps
        = log.sleeps ++ sl
      ∧ (1 ≤ attempt → sl = (List.range ext.length).map (fun k => delay * 2 ^ k))
      ∧ (attempt = 0 →
          sl = (List.range (ext.length - 1)).map (fun k => delay * 2 ^ k)) := by
  intro left
  induction left with
  | zero =>
    intro attempt delay c log
    exact ⟨[], [], by simp [positions_retry_loop], by simp [positions_retry_loop],
      by intro _; simp, by intro _; simp⟩
  | succ l ih =>
    intro attempt delay c log
    simp only [positions_retry_loop]
    by_cases hlen : c.length = validators.length
    · simp only [hlen, if_true]
      exact ⟨[], [], by simp, by simp, by intro _; simp, by intro _; simp⟩
    · simp only [hlen, if_false]
      by_cases hatt : 0 < attempt
      · simp only [hatt, if_true]
        obtain ⟨ext1, sl1, hq1, hs1, hind1, _⟩ := ih (attempt + 1) (delay * 2)
          (List.foldl (fun d e => dictInsert d e.1 e.2) c
            (query_successes (remaining_validators validators c) (reply attempt)))
          ⟨log.queried ++ [(remaining_validators validators c).map (fun v => v.hotkey)],
            log.sleeps ++ [delay]⟩
        have hsl1 := hind1 (by omega)
        refine ⟨(remaining_validators validators c).map (fun v => v.hotkey) :: ext1,
          delay :: sl1, ?_, ?_, ?_, ?_⟩
        · simpa using hq1
        · simpa using hs1
        · intro _
          simp only [List.length_cons, List.range_succ_eq_map, List.map_cons,
            List.map_map]
          congr 1
          · simp
          · rw [hsl1]
            refine List.map_congr_left ?_
            intro a _
            simp only [Function.comp_apply, Nat.pow_succ]
            ring
        · intro h0
          omega
      · have hatt0 : attempt = 0 := by omega
        simp only [hatt, if_false]
        obtain ⟨ext1, sl1, hq1, hs1, hind1, _⟩ := ih (attempt + 1) delay
          (List.foldl (fun d e => dictInsert d e.1 e.2) c
            (query_successes (remaining_validators validators c) (reply attempt)))
          ⟨log.queried ++ [(remaining_validators validators c).map (fun v => v.hotkey)],
            log.sleeps⟩
        have hsl1 := hind1 (by omega)
        refine ⟨(remaining_validators validators c).map (fun v => v.hotkey) :: ext1,
          sl1, ?_, ?_, ?_, ?_⟩
        · simpa using hq1
        · simpa using hs1
        · intro hcon
          omega
        · intro _
          rw [hsl1]
          simp

theorem dictContains_foldl_insert_false {α : Type} {l : List (String × α)}
    {c : List (String × α)} {h : String} (hc : dictContains c h = false)
    (hl : ∀ e ∈ l, e.1 ≠ h) :
    dictContains (l.foldl (fun d e => dictInsert d e.1 e.2) c) h = false := by
  rw [Bool.eq_false_iff]
  intro hcon
  rcases (dictContains_foldl_insert l c h).mp hcon with hch | ⟨e, he, hk⟩
  · rw [hc] at hch
    cases hch
  · exact hl e he hk

theorem retry_loop_never_collects (validators : List Validator)
    (reply : Nat → String → Option (List PositionRec)) (hk : String)
    (hfail : ∀ k, reply k hk = none) :
    ∀ (left attempt delay : Nat) (c : Replica) (log : QueryLog),
    dictContains c hk = false →
    dictContains (positions_retry_loop validators reply attempt left delay c log).1 hk
      = false := by
  intro left
  induction left with
  | zero => intro attempt delay c log hc; exact hc
  | succ l ih =>
    intro attempt delay c log hc
    simp only [positions_retry_loop]
    by_cases hlen : c.length = validators.length
    · simp only [hlen, if_true]
      exact hc
    · simp only [hlen, if_false]
      refine ih (attempt + 1) _ _ _ ?_
      refine dictContains_foldl_insert_false hc ?_
      rintro ⟨k1, ps1⟩ he rfl
      obtain ⟨v, _, _, hrep⟩ := mem_query_successes.mp he
      rw [hfail attempt] at hrep
      cases hrep

theorem retry_loop_key_kept (validators : List Validator)
    (reply : Nat → String → Option (List PositionRec)) (hk : String) :
    ∀ (left attempt delay : Nat) (c : Replica) (log : QueryLog),
    dictContains c hk = true →
    ∃ ext,
      (positions_retry_loop validators reply attempt left delay c log).2.queried
        = log.queried ++ ext
      ∧ (∀ q ∈ ext, hk ∉ q)
      ∧ dictContains
          (positions_retry_loop validators reply attempt left delay c log).1 hk
          = true := by
  intro left
  induction left with
  | zero =>
    intro attempt delay c log hc
    exact ⟨[], by simp [positions_retry_loop], by simp, hc⟩
  | succ l ih =>
    intro attempt delay c log hc
    simp only [positions_retry_loop]
    by_cases hlen : c.length = validators.length
    · simp only [hlen, if_true]
      exact ⟨[], by simp, by simp, hc⟩
    · simp only [hlen, if_false]
      have hc1 : dictContains
          (List.foldl (fun d e => dictInsert d e.1 e.2) c
            (query_successes (remaining_validators validators c) (reply attempt)))
          hk = true :=
        (dictContains_foldl_insert _ c hk).mpr (Or.inl hc)
      obtain ⟨ext1, hq1, hnot1, hkept1⟩ := ih (attempt + 1)
        (if 0 < attempt then delay * 2 else delay) _
        ⟨log.queried ++ [(remaining_validators validators c).map (fun v => v.hotkey)],
          if 0 < attempt then log.sleeps ++ [delay] else log.sleeps⟩ hc1
      refine ⟨(remaining_validators validators c).map (fun v => v.hotkey) :: ext1,
        ?_, ?_, ?_⟩
      · simpa using hq1
      · intro q hq
        rcases List.mem_cons.mp hq with hq | hq
        · subst hq
          intro hmem
          obtain ⟨v, hv, hkey⟩ := List.mem_map.mp hmem
          simp only [remaining_validators] at hv
          have hvrem := List.of_mem_filter hv
          simp [hkey, hc] at hvrem
        · exact hnot1 q hq
      · exact hkept1

theorem retry_loop_no_requery (validators : List Validator)
    (reply : Nat → String → Option (List PositionRec)) :
    ∀ (left attempt delay : Nat) (c : Replica) (log : QueryLog),
    log.queried.length = attempt →
    ∀ i j hk, attempt ≤ i → i < j →
    hk ∈ ((positions_retry_loop validators reply attempt left delay c log).2.queried.getD i [])
    → (reply i hk).isSome = true →
    hk ∉ ((positions_retry_loop validators reply attempt left delay c log).2.queried.getD j []) := by
  intro left
  induction left with
  | zero =>
    intro attempt delay c log hlen0 i j hk hai _ hmem _
    rw [List.getD_eq_default] at hmem
    · cases hmem
    · show log.queried.length ≤ i
      omega
  | succ l ih =>
    intro attempt delay c log hlen0 i j hk hai hij
    simp only [positions_retry_loop]
    by_cases hlen : c.length = validators.length
    · simp only [hlen, if_true]
      intro hmem _
      rw [List.getD_eq_default] at hmem
      · cases hmem
      · omega
    · simp only [hlen, if_false]
      intro hmem hsome
      have hlen1 : (log.queried
          ++ [(remaining_validators validators c).map (fun v => v.hotkey)]).length
          = attempt + 1 := by
        simp [hlen0]
      by_cases hi_att : i = attempt
      · subst hi_att
        obtain ⟨ext, sl, hq, _, _, _⟩ := retry_loop_log_spec validators reply l
          (i + 1) (if 0 < i then delay * 2 else delay)
          (List.foldl (fun d e => dictInsert d e.1 e.2) c
            (query_successes (remaining_validators validators c) (reply i)))
          ⟨log.queried ++ [(remaining_validators validators c).map (fun v => v.hotkey)],
            if 0 < i then log.sleeps ++ [delay] else log.sleeps⟩
        rw [hq] at hmem
        rw [List.getD_append _ _ _ _ (by rw [hlen1]; omega)] at hmem
        rw [List.getD_append_right _ _ _ _ (by omega)] at hmem
        rw [hlen0] at hmem
        simp only [Nat.sub_self, List.getD_cons_zero] at hmem
        obtain ⟨v, hv, hkey⟩ := List.mem_map.mp hmem
        obtain ⟨ps, hps⟩ := Option.isSome_iff_exists.mp hsome
        have hgot : (hk, ps) ∈ query_successes (remaining_validators validators c)
            (reply i) :=
          mem_query_successes.mpr ⟨v, hv, hkey, hps⟩
        have hc1 : dictContains
            (List.foldl (fun d e => dictInsert d e.1 e.2) c
              (query_successes (remaining_validators validators c) (reply i)))
            hk = true :=
          (dictContains_foldl_insert _ c hk).mpr (Or.inr ⟨(hk, ps), hgot, rfl⟩)
        obtain ⟨ext2, hq2, hnot2, _⟩ := retry_loop_key_kept validators reply hk l
          (i + 1) (if 0 < i then delay * 2 else delay) _
          ⟨log.queried ++ [(remaining_validators validators c).map (fun v => v.hotkey)],
            if 0 < i then log.sleeps ++ [delay] else log.sleeps⟩ hc1
        rw [hq2]
        dsimp only
        rw [List.getD_append_right _ _ _ _ (by rw [hlen1]; omega)]
        rw [hlen1]
        by_cases hjl : j - (i + 1) < ext2.length
        · rw [List.getD_eq_getElem _ _ hjl]
          exact hnot2 _ (List.getElem_mem hjl)
        · rw [List.getD_eq_default _ _ (by omega)]
          simp
      · exact ih (attempt + 1) _ _ _ hlen1 i j hk (by omega) hij hmem hsome

theorem get_positions_early_stop (maxR d : Nat) (validators : List Validator)
    (reply : Nat → String → Option (List PositionRec))
    (hne : validators ≠ [])
    (hnd : (validators.map (fun v => v.hotkey)).Nodup)
    (hall : ∀ v ∈ validators, (reply 0 v.hotkey).isSome = true)
    (hmr : 1 ≤ maxR) :
    (get_positions_with_retry maxR d validators reply).log
      = ⟨[validators.map (fun v => v.hotkey)], []⟩ := by
  obtain ⟨l, rfl⟩ : ∃ l, maxR = l + 1 := ⟨maxR - 1, by omega⟩
  have hlen0 : ¬ ([] : Replica).length = validators.length := by
    simp only [List.length_nil]
    intro h0
    exact hne (List.length_eq_zero.mp h0.symm)
  have hrem : remaining_validators validators [] = validators := by
    simp [remaining_validators, dictContains]
  have hgotkeys : dictKeys (query_successes validators (reply 0))
      = validators.map (fun v => v.hotkey) := by
    rw [dictKeys_query_successes, List.filter_eq_self.mpr hall]
  have hfresh : ∀ e ∈ query_successes validators (reply 0),
      dictContains ([] : Replica) e.1 = false := fun _ _ => rfl
  have hgnd : (dictKeys (query_successes validators (reply 0))).Nodup := by
    rw [hgotkeys]; exact hnd
  have hglen : (query_successes validators (reply 0)).length = validators.length := by
    have h1 : (dictKeys (query_successes validators (reply 0))).length
        = (validators.map (fun v => v.hotkey)).length := by rw [hgotkeys]
    simpa [dictKeys] using h1
  have hc1len : (List.foldl (fun d e => dictInsert d e.1 e.2) ([] : Replica)
      (query_successes validators (reply 0))).length = validators.length := by
    rw [length_foldl_insert_fresh _ _ hfresh hgnd]
    simpa using hglen
  simp only [get_positions_with_retry, positions_retry_loop, hlen0, if_false,
    Nat.lt_irrefl, if_true, hrem]
  rw [retry_loop_stop validators reply l 1 d _ _ hc1len]
  simp

/- Arrival-order lemmas. -/

theorem realign_perm (remaining : List Validator)
    (f : String → Option (List PositionRec))
    (wire : List (String × Option (List PositionRec)))
    (hperm : wire.Perm (remaining.map (fun v => (v.hotkey, f v.hotkey)))) :
    realign (remaining.map (fun v => v.hotkey)) wire
      = remaining.map (fun v => f v.hotkey) := by
  unfold realign
  rw [List.map_map]
  refine List.map_congr_left ?_
  intro v hv
  simp only [Function.comp_apply]
  have hmem : (v.hotkey, f v.hotkey) ∈ wire :=
    hperm.mem_iff.mpr (List.mem_map.mpr ⟨v, hv, rfl⟩)
  have hsome : (wire.find? (fun p => p.1 == v.hotkey)).isSome :=
    List.find?_isSome.mpr ⟨(v.hotkey, f v.hotkey), hmem, by simp⟩
  obtain ⟨p, hp⟩ := Option.isSome_iff_exists.mp hsome
  have hpmem : p ∈ wire := List.mem_of_find?_eq_some hp
  have hppred := List.find?_some hp
  have hpcan : p ∈ remaining.map (fun u => (u.hotkey, f u.hotkey)) :=
    hperm.mem_iff.mp hpmem
  obtain ⟨u, hu, hpu⟩ := List.mem_map.mp hpcan
  have h1 : p.1 = v.hotkey := by simpa using hppred
  rw [hp]
  show p.2 = f v.hotkey
  rw [← hpu] at h1 ⊢
  dsimp only at h1 ⊢
  rw [h1]

theorem zip_self_map {β : Type} (l : List Validator) (g : Validator → β) :
    l.zip (l.map g) = l.map (fun x => (x, g x)) := by
  induction l with
  | nil => rfl
  | cons x t ih => simp [ih]

theorem retry_loop_arrival_eq (validators : List Validator)
    (reply : Nat → String → Option (List PositionRec))
    (shuffle : Nat → List (String × Option (List PositionRec)) →
      List (String × Option (List PositionRec)))
    (hs : ∀ k w, (shuffle k w).Perm w) :
    ∀ (left attempt delay : Nat) (c : Replica) (log : QueryLog),
    positions_retry_loop_arrival validators reply shuffle attempt left delay (c, log)
      = positions_retry_loop validators reply attempt left delay c log := by
  intro left
  induction left with
  | zero => intro attempt delay c log; rfl
  | succ l ih =>
    intro attempt delay c log
    simp only [positions_retry_loop_arrival, positions_retry_loop]
    by_cases hlen : c.length = validators.length
    · simp [hlen]
    · simp only [hlen, if_false]
      have hre : realign ((remaining_validators validators c).map (fun v => v.hotkey))
          (shuffle attempt ((remaining_validators validators c).map
            (fun v => (v.hotkey, reply attempt v.hotkey))))
          = (remaining_validators validators c).map
              (fun v => reply attempt v.hotkey) :=
        realign_perm _ _ _ (hs attempt _)
      rw [hre, zip_self_map, List.filterMap_map]
      exact ih (attempt + 1) _ _ _

theorem get_positions_arrival_eq (maxR d : Nat) (validators : List Validator)
    (reply : Nat → String → Option (List PositionRec))
    (shuffle : Nat → List (String × Option (List PositionRec)) →
      List (String × Option (List PositionRec)))
    (hs : ∀ k w, (shuffle k w).Perm w) :
    get_positions_with_retry_arrival maxR d validators reply shuffle
      = get_positions_with_retry maxR d validators reply := by
  simp only [get_positions_with_retry_arrival, get_positions_with_retry]
  rw [retry_loop_arrival_eq validators reply shuffle hs]

/- Lemmas about set(values) modelled as dedup, for the desync warning. -/

theorem all_eq_of_dedup_length_le_one {l : List Nat} (h : l.dedup.length ≤ 1) :
    ∀ a ∈ l, ∀ b ∈ l, a = b := by
  intro a ha b hb
  have ha2 : a ∈ l.dedup := List.mem_dedup.mpr ha
  have hb2 : b ∈ l.dedup := List.mem_dedup.mpr hb
  cases hd : l.dedup with
  | nil =>
    rw [hd] at ha2
    cases ha2
  | cons x t =>
    have ht : t = [] := by
      rw [hd, List.length_cons] at h
      exact List.length_eq_zero.mp (by omega)
    rw [hd, ht] at ha2 hb2
    simp at ha2 hb2
    rw [ha2, hb2]

theorem one_lt_dedup_length_iff {l : List Nat} :
    1 < l.dedup.length ↔ ∃ a ∈ l, ∃ b ∈ l, a ≠ b := by
  constructor
  · intro h
    cases hd : l.dedup with
    | nil =>
      rw [hd] at h
      simp at h
    | cons x t =>
      cases t with
      | nil =>
        rw [hd] at h
        simp at h
      | cons y r =>
        have hnd : (x :: y :: r).Nodup := hd ▸ List.nodup_dedup l
        have hxy : x ≠ y := by
          have hx0 := (List.nodup_cons.mp hnd).1
          intro hcon
          exact hx0 (by rw [hcon]; simp)
        have hx : x ∈ l := List.mem_dedup.mp (by rw [hd]; simp)
        have hy : y ∈ l := List.mem_dedup.mp (by rw [hd]; simp)
        exact ⟨x, hx, y, hy, hxy⟩
  · rintro ⟨a, ha, b, hb, hab⟩
    by_contra hcon
    exact hab (all_eq_of_dedup_length_le_one (by omega) a ha b hb)

/- Lookup lemmas for the merge in the plagiarism refresh. -/

theorem dictLookup_isSome_iff {α : Type} {d : List (String × α)} {k : String} :
    (dictLookup d k).isSome = true ↔ dictContains d k = true := by
  simp [dictLookup, dictContains, List.find?_isSome, List.any_eq_true]

theorem dictLookup_const {α : Type} {b : List (String × α)} {k : String} {c : α}
    (hcon : dictContains b k = true) (hval : ∀ e ∈ b, e.2 = c) :
    dictLookup b k = some c := by
  have hsome : (b.find? (fun e => e.1 == k)).isSome := by
    refine List.find?_isSome.mpr ?_
    obtain ⟨e, he, hk⟩ := dictContains_iff.mp hcon
    exact ⟨e, he, by simp [hk]⟩
  obtain ⟨p, hp⟩ := Option.isSome_iff_exists.mp hsome
  have hpm : p ∈ b := List.mem_of_find?_eq_some hp
  simp [dictLookup, hp, hval p hpm]

theorem dictLookup_append {α : Type} (a b : List (String × α)) (k : String) :
    dictLookup (a ++ b) k = (dictLookup a k).or (dictLookup b k) := by
  simp only [dictLookup, List.find?_append]
  cases a.find? (fun e => e.1 == k) <;> simp

theorem dictLookup_mapped_update {α : Type} (b : List (String × α)) (k : String) :
    ∀ (a : List (String × α)),
    dictLookup (a.map (fun e => (e.1, (dictLookup b e.1).getD e.2))) k
      = (dictLookup a k).map (fun v => (dictLookup b k).getD v) := by
  intro a
  induction a with
  | nil => rfl
  | cons e t ih =>
    simp only [List.map_cons, dictLookup, List.find?_cons]
    by_cases hek : (e.1 == k) = true
    · have hk : e.1 = k := by simpa using hek
      simp [hek, hk]
    · have hekf : (e.1 == k) = false := by simpa using hek
      simp only [hekf]
      simpa [dictLookup] using ih

theorem dictLookup_filter_keep {α : Type} (p : String × α → Bool) (k : String)
    (hp : ∀ e : String × α, e.1 = k → p e = true) :
    ∀ (b : List (String × α)), dictLookup (b.filter p) k = dictLookup b k := by
  intro b
  induction b with
  | nil => rfl
  | cons e t ih =>
    by_cases hek : (e.1 == k) = true
    · have hk : e.1 = k := by simpa using hek
      rw [List.filter_cons_of_pos (hp e hk)]
      simp only [dictLookup, List.find?_cons, hek]
    · have hekf : (e.1 == k) = false := by simpa using hek
      by_cases hpe : p e = true
      · rw [List.filter_cons_of_pos hpe]
        simp only [dictLookup, List.find?_cons, hekf]
        simpa [dictLookup] using ih
      · rw [List.filter_cons_of_neg (by simpa using hpe)]
        simp only [dictLookup, List.find?_cons, hekf]
        simpa [dictLookup] using ih

theorem dictLookup_update_absent {α : Type} (a b : List (String × α))
    (k : String) (ha : dictContains a k = false) :
    dictLookup (dictUpdate a b) k = dictLookup b k := by
  unfold dictUpdate
  rw [dictLookup_append, dictLookup_mapped_update b k a,
    dictLookup_eq_none_iff.mpr ha]
  simp only [Option.map_none', Option.none_or]
  exact dictLookup_filter_keep _ k (fun e he => by simp [he, ha]) b

theorem dictLookup_update_blocked {α : Type} (a b : List (String × α))
    (k : String) (c : α) (hcon : dictContains b k = true)
    (hval : ∀ e ∈ b, e.2 = c) :
    dictLookup (dictUpdate a b) k = some c := by
  unfold dictUpdate
  rw [dictLookup_append, dictLookup_mapped_update b k a]
  by_cases hak : dictContains a k = true
  · obtain ⟨v, hv⟩ := Option.isSome_iff_exists.mp
      (dictLookup_isSome_iff.mpr hak)
    rw [hv, dictLookup_const hcon hval]
    simp
  · have ha0 : dictContains a k = false := by
      rw [Bool.eq_false_iff]
      exact hak
    rw [dictLookup_eq_none_iff.mpr ha0]
    simp only [Option.map_none', Option.none_or]
    rw [dictLookup_filter_keep _ k (fun e he => by simp [he, ha0]) b]
    exact dictLookup_const hcon hval

/- Lemmas about the blocklist comprehension. -/

theorem blocklist_foldl_values {bl : List String} :
    ∀ (init : List (String × ℚ)), (∀ e ∈ init, e.2 = 1) →
    ∀ e ∈ bl.foldl (fun d h => dictInsert d h 1) init, e.2 = 1 := by
  induction bl with
  | nil => intro init hinit; exact hinit
  | cons x t ih =>
    intro init hinit
    simp only [List.foldl_cons]
    refine ih (dictInsert init x 1) ?_
    intro e he
    unfold dictInsert at he
    by_cases hc : dictContains init x
    · rw [if_pos hc] at he
      obtain ⟨e0, he0, heq⟩ := List.mem_map.mp he
      by_cases he0x : (e0.1 == x) = true
      · rw [if_pos he0x] at heq
        rw [← heq]
      · rw [if_neg he0x] at heq
        rw [← heq]
        exact hinit e0 he0
    · rw [if_neg hc] at he
      rcases List.mem_append.mp he with he1 | he1
      · exact hinit e he1
      · have : e = (x, 1) := by simpa using he1
        rw [this]

theorem blocklist_contains {bl : List String} {h : String} :
    ∀ (init : List (String × ℚ)),
    dictContains (bl.foldl (fun d k => dictInsert d k 1) init) h = true
      ↔ (dictContains init h = true ∨ h ∈ bl) := by
  induction bl with
  | nil => intro init; simp
  | cons x t ih =>
    intro init
    simp only [List.foldl_cons]
    rw [ih, dictContains_insert_iff]
    simp only [List.mem_cons]
    constructor
    · rintro ((hc | hx) | ht)
      · exact Or.inl hc
      · exact Or.inr (Or.inl hx.symm)
      · exact Or.inr (Or.inr ht)
    · rintro (hc | hx | ht)
      · exact Or.inl (Or.inl hc)
      · exact Or.inl (Or.inr hx.symm)
      · exact Or.inr ht

/- Concrete fixtures used by counterexamples and witnesses. -/

def vA : Validator := ⟨"A"⟩

def vB : Validator := ⟨"B"⟩

def vC : Validator := ⟨"C"⟩

def o1 : OrderRec := ⟨0, 1, 1⟩

def o2 : OrderRec := ⟨1, 1, 1⟩

def posA : List PositionRec := [⟨[o1, o2], 1⟩]

def posB : List PositionRec := [⟨[o1, o2], 2⟩]

def posOneA : List PositionRec := [⟨[o1], 1⟩]

def posOneB : List PositionRec := [⟨[o1], 2⟩]

def posEmptyOrdersA : List PositionRec := [⟨[], 1⟩]

def posEmptyOrdersB : List PositionRec := [⟨[], 2⟩]

def replyABC : Nat → String → Option (List PositionRec) :=
  fun _ h => if h = "A" then some posA else if h = "B" then some posB else none

def elimRow1 : EliminationRow := ⟨"hk1", 0, 9/10, "MAX_TOTAL_DRAWDOWN"⟩

/-- C1 counterexample: an elimination row for a hotkey absent from the
metagraph snapshot is dropped by the load-filter-flush round trip, so after
reload it is gone, contradicting the claim that it is still present. -/
theorem elimination_roundtrip_cex :
    get_eliminations_from_disk
        ((refresh_eliminations_in_memory_and_disk [] [elimRow1]).2) = []
    ∧ elimRow1 ∉ get_eliminations_from_disk
        ((refresh_eliminations_in_memory_and_disk [] [elimRow1]).2) := by
  decide

/-- C1 amended: the eliminations load-filter-flush round trip keeps exactly
the rows whose hotkey is in the registry snapshot; a row whose identity was
removed from the registry is erased from disk, so deregistration (and hence
re-registration) does clear a past elimination. -/
theorem elimination_roundtrip_membership (metagraphHotkeys : List String)
    (disk : List EliminationRow) (e : EliminationRow) :
    e ∈ get_eliminations_from_disk
        ((refresh_eliminations_in_memory_and_disk metagraphHotkeys disk).2)
      ↔ (e ∈ disk ∧ e.hotkey ∈ metagraphHotkeys) := by
  simp [refresh_eliminations_in_memory_and_disk,
    get_filtered_eliminations_from_disk, get_eliminations_from_disk,
    write_eliminations_to_disk, List.mem_filter]

/-- C2 counterexample: a 2-peer replica set with identical order counts (0)
but different leverages yields the empty list, not the first peer's
positions, because selection requires strictly beating the initial max 0. -/
theorem reconcile_tie_zero_orders_cex :
    (reconcile_validator_positions
        [("A", posEmptyOrdersA), ("B", posEmptyOrdersB)]).positions = []
    ∧ (reconcile_validator_positions
        [("A", posEmptyOrdersA), ("B", posEmptyOrdersB)]).positions
        ≠ posEmptyOrdersA := by
  decide

/-- C2 amended: whenever the maximal order count over the replica set is
strictly positive, reconcile_validator_positions returns the positions of
the first peer (in dict iteration order) achieving that maximal count; in
particular ties on a positive count go to the first-seen peer. -/
theorem reconcile_first_max (replica : Replica) (e : String × List PositionRec)
    (hfind : replica.find? (fun x => orderCount x.2 == maxOrderCount replica)
      = some e)
    (hpos : 0 < maxOrderCount replica) :
    (reconcile_validator_positions replica).positions = e.2 := by
  rw [reconcile_positions_eq_selectCanonical]
  unfold selectCanonical
  obtain ⟨x, hfind2, hfold⟩ := foldl_selectStep_find replica 0 [] hpos
  rw [hfind2] at hfind
  injection hfind with hex
  rw [hfold, hex]

/-- C2 witness: two peers with one order each and different leverages; the
first peer's positions are selected. -/
theorem reconcile_first_max_witness :
    (reconcile_validator_positions [("A", posOneA), ("B", posOneB)]).positions
      = posOneA :=
  reconcile_first_max _ ("A", posOneA) (by decide) (by decide)

/-- C10: when every replying peer's total order count is 0, the canonical
result is the empty list; no peer's reply is selected, not even the first
peer's, since selection requires strictly exceeding the initial maximum 0. -/
theorem reconcile_all_zero_orders (replica : Replica) (hne : replica ≠ [])
    (h0 : ∀ e ∈ replica, orderCount e.2 = 0) :
    (reconcile_validator_positions replica).positions = [] := by
  rw [reconcile_positions_eq_selectCanonical]
  unfold selectCanonical
  rw [foldl_selectStep_of_le replica 0 [] (fun e he => le_of_eq (h0 e he))]

/-- C10 witness: a single peer replying with one position holding no orders
yields the empty canonical list. -/
theorem reconcile_all_zero_orders_witness :
    (reconcile_validator_positions [("A", posEmptyOrdersA)]).positions = [] :=
  reconcile_all_zero_orders [("A", posEmptyOrdersA)] (by decide) (by decide)

/-- C5: when every peer fails on every attempt, get_positions_with_retry
returns the empty canonical list and an empty acked set; the embedding is a
total function, so no exception can be raised. -/
theorem get_positions_all_fail_empty (maxR d : Nat) (validators : List Validator)
    (reply : Nat → String → Option (List PositionRec))
    (hfail : ∀ k hk, reply k hk = none) :
    (get_positions_with_retry maxR d validators reply).canonical = []
    ∧ (get_positions_with_retry maxR d validators reply).acked = [] := by
  have hcol : (positions_retry_loop validators reply 0 maxR d [] ⟨[], []⟩).1 = [] :=
    retry_loop_all_fail validators reply hfail maxR 0 d [] ⟨[], []⟩
  constructor
  · show (reconcile_validator_positions
      (positions_retry_loop validators reply 0 maxR d [] ⟨[], []⟩).1).positions = []
    rw [hcol]
    rfl
  · show dictKeys (positions_retry_loop validators reply 0 maxR d [] ⟨[], []⟩).1 = []
    rw [hcol]
    rfl

/-- C5 witness: two peers, all replies fail, source constants for retries
and delay. -/
theorem get_positions_all_fail_empty_witness :
    (get_positions_with_retry MAX_RETRIES INITIAL_RETRY_DELAY [vA, vB]
        (fun _ _ => none)).canonical = []
    ∧ (get_positions_with_retry MAX_RETRIES INITIAL_RETRY_DELAY [vA, vB]
        (fun _ _ => none)).acked = [] :=
  get_positions_all_fail_empty MAX_RETRIES INITIAL_RETRY_DELAY [vA, vB]
    (fun _ _ => none) (fun _ _ => rfl)

/-- C6: retry behaviour of get_positions_with_retry. A peer failing on
every attempt is excluded from the acked set (hence from the replica the
canonical list is selected from); the sleep trace is the geometric sequence
d, d*2, d*4, ... with one sleep before each attempt after the first; a peer
that replied successfully at an earlier attempt is never queried at a later
attempt; and when every peer replies on the first attempt the loop stops
after a single query round with no sleeps. -/
theorem get_positions_retry_behavior (maxR d : Nat) (validators : List Validator)
    (reply : Nat → String → Option (List PositionRec)) :
    (∀ hk, (∀ k, reply k hk = none) →
      hk ∉ (get_positions_with_retry maxR d validators reply).acked)
    ∧ ((get_positions_with_retry maxR d validators reply).log.sleeps
        = (List.range
            ((get_positions_with_retry maxR d validators reply).log.queried.length
              - 1)).map (fun k => d * 2 ^ k))
    ∧ (∀ i j hk, i < j →
        hk ∈ ((get_positions_with_retry maxR d validators reply).log.queried.getD i [])
        → (reply i hk).isSome = true
        → hk ∉ ((get_positions_with_retry maxR d validators reply).log.queried.getD j []))
    ∧ (validators ≠ [] → (validators.map (fun v => v.hotkey)).Nodup →
        (∀ v ∈ validators, (reply 0 v.hotkey).isSome = true) → 1 ≤ maxR →
        (get_positions_with_retry maxR d validators reply).log.queried.length = 1
        ∧ (get_positions_with_retry maxR d validators reply).log.sleeps = []) := by
  refine ⟨?_, ?_, ?_, ?_⟩
  · intro hk hfail
    show hk ∉ dictKeys (positions_retry_loop validators reply 0 maxR d [] ⟨[], []⟩).1
    simp only [mem_dictKeys_iff]
    rw [retry_loop_never_collects validators reply hk hfail maxR 0 d [] ⟨[], []⟩ rfl]
    simp
  · obtain ⟨ext, sl, hq, hs, _, h0⟩ :=
      retry_loop_log_spec validators reply maxR 0 d [] ⟨[], []⟩
    have hsl := h0 rfl
    show (positions_retry_loop validators reply 0 maxR d [] ⟨[], []⟩).2.sleeps
      = (List.range
          ((positions_retry_loop validators reply 0 maxR d [] ⟨[], []⟩).2.queried.length
            - 1)).map (fun k => d * 2 ^ k)
    rw [hs, hsl, hq]
    simp
  · intro i j hk hij hmem hsome
    exact retry_loop_no_requery validators reply maxR 0 d [] ⟨[], []⟩ rfl i j hk
      (Nat.zero_le i) hij hmem hsome
  · intro hne hnd hall hmr
    have hlog := get_positions_early_stop maxR d validators reply hne hnd hall hmr
    constructor
    · rw [hlog]
      rfl
    · rw [hlog]

def replyBonly : Nat → String → Option (List PositionRec) :=
  fun _ h => if h = "B" then some posOneB else none

def replyAllA : Nat → String → Option (List PositionRec) :=
  fun _ _ => some posOneA

/-- C6 witness: with peer A always failing and maxRetries 2, A is not in
the acked set, the sleep trace follows the geometric law, peer B (which
replied at attempt 0) is not queried at attempt 1, and with all peers
replying at attempt 0 the loop stops after one round with no sleeps. -/
theorem get_positions_retry_behavior_witness :
    "A" ∉ (get_positions_with_retry 2 3 [vA, vB] replyBonly).acked
    ∧ (get_positions_with_retry 2 3 [vA, vB] replyBonly).log.sleeps
        = (List.range
            ((get_positions_with_retry 2 3 [vA, vB] replyBonly).log.queried.length
              - 1)).map (fun k => 3 * 2 ^ k)
    ∧ "B" ∉ ((get_positions_with_retry 2 3 [vA, vB] replyBonly).log.queried.getD 1 [])
    ∧ ((get_positions_with_retry 1 3 [vA, vB] replyAllA).log.queried.length = 1
        ∧ (get_positions_with_retry 1 3 [vA, vB] replyAllA).log.sleeps = []) := by
  refine ⟨?_, ?_, ?_, ?_⟩
  · exact (get_positions_retry_behavior 2 3 [vA, vB] replyBonly).1 "A"
      (fun k => rfl)
  · exact (get_positions_retry_behavior 2 3 [vA, vB] replyBonly).2.1
  · exact (get_positions_retry_behavior 2 3 [vA, vB] replyBonly).2.2.1 0 1 "B"
      (by decide) (by decide) (by decide)
  · exact (get_positions_retry_behavior 1 3 [vA, vB] replyAllA).2.2.2
      (by decide) (by decide) (fun v hv => rfl) (by decide)

/-- C3: the outcome of get_positions_with_retry does not depend on the
physical arrival order of the wire replies: for any two permutation
schedules of each attempt's replies, the realigned runs coincide, and both
equal the arrival-free run, whose tie-break follows the order validators
appear in the queried snapshot list. Determinism across repeated calls is
immediate since the run is a pure function of the snapshot and replies. -/
theorem fetch_canonical_arrival_independent (maxR d : Nat)
    (validators : List Validator)
    (reply : Nat → String → Option (List PositionRec))
    (s1 s2 : Nat → List (String × Option (List PositionRec)) →
      List (String × Option (List PositionRec)))
    (h1 : ∀ k w, (s1 k w).Perm w) (h2 : ∀ k w, (s2 k w).Perm w) :
    get_positions_with_retry_arrival maxR d validators reply s1
      = get_positions_with_retry_arrival maxR d validators reply s2
    ∧ get_positions_with_retry_arrival maxR d validators reply s1
      = get_positions_with_retry maxR d validators reply := by
  have e1 := get_positions_arrival_eq maxR d validators reply s1 h1
  have e2 := get_positions_arrival_eq maxR d validators reply s2 h2
  exact ⟨by rw [e1, e2], e1⟩

/-- C3 witness: reversing the wire order of every attempt gives the same
run as delivering it unchanged, and the same run as the arrival-free
model. -/
theorem fetch_canonical_arrival_independent_witness :
    get_positions_with_retry_arrival MAX_RETRIES INITIAL_RETRY_DELAY
        [vA, vB, vC] replyABC (fun _ w => w.reverse)
      = get_positions_with_retry_arrival MAX_RETRIES INITIAL_RETRY_DELAY
        [vA, vB, vC] replyABC (fun _ w => w)
    ∧ get_positions_with_retry_arrival MAX_RETRIES INITIAL_RETRY_DELAY
        [vA, vB, vC] replyABC (fun _ w => w.reverse)
      = get_positions_with_retry MAX_RETRIES INITIAL_RETRY_DELAY
        [vA, vB, vC] replyABC :=
  fetch_canonical_arrival_independent MAX_RETRIES INITIAL_RETRY_DELAY
    [vA, vB, vC] replyABC (fun _ w => w.reverse) (fun _ w => w)
    (fun _ w => List.reverse_perm w) (fun _ w => List.Perm.refl w)

/-- C4 counterexample: with the spec-typical configuration where the daily
threshold (0.95) is looser than the total threshold (0.9), a ratio exactly
equal to the total threshold, arriving inside the midnight window, is
classified MAX_DAILY_DRAWDOWN: it is a breach, contradicting the claim that
equality with the total threshold is never a breach. -/
theorem mdd_total_threshold_equality_cex :
    is_drawdown_beyond_mdd ⟨19/20, 9/10⟩ (9/10) ⟨0, 0⟩
      = MddCheck.maxDailyDrawdown
    ∧ MddCheck.maxDailyDrawdown ≠ MddCheck.noBreach := by
  constructor
  · unfold is_drawdown_beyond_mdd
    rw [if_pos]
    refine ⟨by norm_num, rfl, by norm_num⟩
  · decide

/-- C4 amended: is_drawdown_beyond_mdd returns MAX_DAILY_DRAWDOWN iff the
ratio is below the daily threshold and the time is in the first 5 minutes
after midnight; otherwise MAX_TOTAL_DRAWDOWN iff the ratio is strictly
below the total threshold; otherwise no breach. A ratio exactly equal to
the total threshold is not classified MAX_TOTAL_DRAWDOWN, and outside the
midnight window it is no breach at all. -/
theorem is_drawdown_beyond_mdd_spec (cfg : ValiConfigM) (dd : ℚ)
    (t : TimestampM) :
    (is_drawdown_beyond_mdd cfg dd t = MddCheck.maxDailyDrawdown
      ↔ (dd < cfg.MAX_DAILY_DRAWDOWN ∧ t.hour = 0 ∧ t.minute < 5))
    ∧ (is_drawdown_beyond_mdd cfg dd t = MddCheck.maxTotalDrawdown
      ↔ (¬(dd < cfg.MAX_DAILY_DRAWDOWN ∧ t.hour = 0 ∧ t.minute < 5)
          ∧ dd < cfg.MAX_TOTAL_DRAWDOWN))
    ∧ (is_drawdown_beyond_mdd cfg dd t = MddCheck.noBreach
      ↔ (¬(dd < cfg.MAX_DAILY_DRAWDOWN ∧ t.hour = 0 ∧ t.minute < 5)
          ∧ ¬ dd < cfg.MAX_TOTAL_DRAWDOWN))
    ∧ (¬(t.hour = 0 ∧ t.minute < 5) → dd = cfg.MAX_TOTAL_DRAWDOWN →
        is_drawdown_beyond_mdd cfg dd t = MddCheck.noBreach) := by
  unfold is_drawdown_beyond_mdd
  split_ifs with h1 h2
  · refine ⟨by simp [h1], by simp [h1], by simp [h1], ?_⟩
    intro hw _
    exact absurd ⟨h1.2.1, h1.2.2⟩ hw
  · refine ⟨by simp [h1], by simp [h1, h2], by simp [h2], ?_⟩
    intro _ heq
    rw [heq] at h2
    exact absurd h2 (lt_irrefl _)
  · exact ⟨by simp [h1], by simp [h1, h2], by simp [h1, h2], fun _ _ => rfl⟩

/-- C4 witness: at a timestamp outside the midnight window, a ratio exactly
equal to the total threshold is classified as no breach. -/
theorem is_drawdown_beyond_mdd_spec_witness :
    is_drawdown_beyond_mdd ⟨19/20, 9/10⟩ (9/10) ⟨1, 0⟩ = MddCheck.noBreach :=
  (is_drawdown_beyond_mdd_spec ⟨19/20, 9/10⟩ (9/10) ⟨1, 0⟩).2.2.2
    (by simp) rfl

/-- C7: on every plagiarism-score refresh, every identity in the block-list
document ends with the maximal penalty score 1 regardless of its stored
value, every identity absent from both the registry snapshot and the
block-list ends with no stored score, and the merged result is written back
to disk unchanged. -/
theorem refresh_plagiarism_scores_spec (metagraphHotkeys : List String)
    (cachedDisk : List (String × ℚ)) (blocklist : List String) :
    (∀ h ∈ blocklist,
      dictLookup ((refresh_plagiarism_scores_in_memory_and_disk
        metagraphHotkeys cachedDisk blocklist).1) h = some 1)
    ∧ (∀ h, h ∉ metagraphHotkeys → h ∉ blocklist →
      dictLookup ((refresh_plagiarism_scores_in_memory_and_disk
        metagraphHotkeys cachedDisk blocklist).1) h = none)
    ∧ (refresh_plagiarism_scores_in_memory_and_disk
        metagraphHotkeys cachedDisk blocklist).2
      = (refresh_plagiarism_scores_in_memory_and_disk
        metagraphHotkeys cachedDisk blocklist).1 := by
  refine ⟨?_, ?_, rfl⟩
  · intro h hbl
    show dictLookup (dictUpdate
      (cachedDisk.filter (fun e => metagraphHotkeys.contains e.1))
      (blocklistScores blocklist)) h = some 1
    refine dictLookup_update_blocked _ _ h 1 ?_ ?_
    · exact (blocklist_contains []).mpr (Or.inr hbl)
    · exact blocklist_foldl_values [] (by simp)
  · intro h hm hb
    have ha : dictContains
        (cachedDisk.filter (fun e => metagraphHotkeys.contains e.1)) h
        = false := by
      rw [Bool.eq_false_iff]
      intro hcon
      obtain ⟨e, he, hk⟩ := dictContains_iff.mp hcon
      have hme := List.of_mem_filter he
      rw [hk] at hme
      simp at hme
      exact hm hme
    show dictLookup (dictUpdate
      (cachedDisk.filter (fun e => metagraphHotkeys.contains e.1))
      (blocklistScores blocklist)) h = none
    rw [dictLookup_update_absent _ _ h ha, dictLookup_eq_none_iff,
      Bool.eq_false_iff]
    intro hcon
    rcases (blocklist_contains []).mp hcon with h0 | h0
    · simp [dictContains] at h0
    · exact hb h0

/-- C7 witness: a departed identity's score is dropped, a block-listed
identity is forced to score 1, and the merge is flushed to disk. -/
theorem refresh_plagiarism_scores_spec_witness :
    dictLookup ((refresh_plagiarism_scores_in_memory_and_disk ["m1"]
        [("m1", 0), ("gone", 1/2)] ["bad"]).1) "bad" = some 1
    ∧ dictLookup ((refresh_plagiarism_scores_in_memory_and_disk ["m1"]
        [("m1", 0), ("gone", 1/2)] ["bad"]).1) "gone" = none
    ∧ (refresh_plagiarism_scores_in_memory_and_disk ["m1"]
        [("m1", 0), ("gone", 1/2)] ["bad"]).2
      = (refresh_plagiarism_scores_in_memory_and_disk ["m1"]
        [("m1", 0), ("gone", 1/2)] ["bad"]).1 := by
  refine ⟨?_, ?_, ?_⟩
  · exact (refresh_plagiarism_scores_spec ["m1"] [("m1", 0), ("gone", 1/2)]
      ["bad"]).1 "bad" (by decide)
  · exact (refresh_plagiarism_scores_spec ["m1"] [("m1", 0), ("gone", 1/2)]
      ["bad"]).2.1 "gone" (by decide) (by decide)
  · exact (refresh_plagiarism_scores_spec ["m1"] [("m1", 0), ("gone", 1/2)]
      ["bad"]).2.2

def inspectorReply : Nat → String → Option (List PositionRec) :=
  fun _ _ => some posOneA

/-- C8 counterexample: a call inside the refresh interval returns None
(the function returns nothing on both paths), not the last computed
result: after a completed refresh whose computed canonical list is
posOneA, the within-interval call's returned value differs from that
result. -/
theorem log_validator_positions_return_cex :
    (log_validator_positions 1100 1100
        ((log_validator_positions 1000 1000 ⟨0, []⟩ [vA] inspectorReply).1)
        [vA] inspectorReply).2.1 = none
    ∧ (get_positions_with_retry MAX_RETRIES INITIAL_RETRY_DELAY [vA]
        inspectorReply).canonical = posOneA
    ∧ (log_validator_positions 1100 1100
        ((log_validator_positions 1000 1000 ⟨0, []⟩ [vA] inspectorReply).1)
        [vA] inspectorReply).2.1
      ≠ some ((get_positions_with_retry MAX_RETRIES INITIAL_RETRY_DELAY [vA]
        inspectorReply).canonical) := by
  refine ⟨?_, ?_, ?_⟩ <;> decide

/-- C8 amended: log_validator_positions returns no result on any path;
refresh_allowed is false exactly when the elapsed time since the last
completed refresh is at most UPDATE_INTERVAL_S; and a call inside the
interval is a no-op: it issues zero query rounds, leaves the inspector
state unchanged, and returns nothing. -/
theorem log_validator_positions_noop (now nowEnd : Int) (st : InspectorState)
    (validators : List Validator)
    (reply : Nat → String → Option (List PositionRec)) :
    ((log_validator_positions now nowEnd st validators reply).2.1 = none)
    ∧ (refresh_allowed now st = false
        ↔ now - st.last_update_time ≤ UPDATE_INTERVAL_S)
    ∧ (now - st.last_update_time ≤ UPDATE_INTERVAL_S →
        log_validator_positions now nowEnd st validators reply = (st, none, 0)) := by
  have hiff : refresh_allowed now st = false
      ↔ now - st.last_update_time ≤ UPDATE_INTERVAL_S := by
    show (decide (UPDATE_INTERVAL_S < now - st.last_update_time) = false) ↔ _
    rw [decide_eq_false_iff_not, not_lt]
  refine ⟨?_, hiff, ?_⟩
  · unfold log_validator_positions
    by_cases h : refresh_allowed now st <;> simp [h]
  · intro h
    unfold log_validator_positions
    rw [hiff.mpr h]
    simp

/-- C8 witness: with the last refresh completed at time 1000, a call at
time 1100 (elapsed 100 <= 300 seconds) is a no-op returning nothing. -/
theorem log_validator_positions_noop_witness :
    (log_validator_positions 1100 1100 ⟨1000, ["A"]⟩ [vA] inspectorReply).2.1
      = none
    ∧ log_validator_positions 1100 1100 ⟨1000, ["A"]⟩ [vA] inspectorReply
      = (⟨1000, ["A"]⟩, none, 0) :=
  ⟨(log_validator_positions_noop 1100 1100 ⟨1000, ["A"]⟩ [vA] inspectorReply).1,
    (log_validator_positions_noop 1100 1100 ⟨1000, ["A"]⟩ [vA]
      inspectorReply).2.2 (by decide)⟩

/-- C9: the desynchronization warning is emitted iff the per-peer order
counts of the replying peers are not all identical; emitting diagnostics
never changes the canonical list (the positions component always equals
the diagnostic-free selection); and in the 3-peer scenario where A and B
both reply with 2 total orders and C never replies, the canonical result
is A's positions, the acked set is exactly A and B, and no desync warning
is emitted. -/
theorem reconcile_diagnostics_spec :
    (∀ replica : Replica,
      ((reconcile_validator_positions replica).desync_warning = true
        ↔ ∃ e1 ∈ replica, ∃ e2 ∈ replica, orderCount e1.2 ≠ orderCount e2.2)
      ∧ (reconcile_validator_positions replica).positions
          = selectCanonical replica)
    ∧ (get_positions_with_retry MAX_RETRIES INITIAL_RETRY_DELAY [vA, vB, vC]
        replyABC).canonical = posA
    ∧ (get_positions_with_retry MAX_RETRIES INITIAL_RETRY_DELAY [vA, vB, vC]
        replyABC).acked = ["A", "B"]
    ∧ (reconcile_validator_positions
        (get_positions_with_retry MAX_RETRIES INITIAL_RETRY_DELAY [vA, vB, vC]
          replyABC).collected).desync_warning = false := by
  refine ⟨?_, by decide, by decide, by decide⟩
  intro replica
  constructor
  · show (decide (1 < (replica.map (fun e => orderCount e.2)).dedup.length)
      = true) ↔ _
    rw [decide_eq_true_eq, one_lt_dedup_length_iff]
    constructor
    · rintro ⟨a, ha, b, hb, hab⟩
      obtain ⟨e1, he1, rfl⟩ := List.mem_map.mp ha
      obtain ⟨e2, he2, rfl⟩ := List.mem_map.mp hb
      exact ⟨e1, he1, e2, he2, hab⟩
    · rintro ⟨e1, he1, e2, he2, hne⟩
      exact ⟨_, List.mem_map.mpr ⟨e1, he1, rfl⟩, _,
        List.mem_map.mpr ⟨e2, he2, rfl⟩, hne⟩
  · exact reconcile_positions_eq_selectCanonical replica
